import Mathlib

/-!
# Verification of the better-auth storage adapter layer

This file gives a shallow embedding of the storage-adapter core of the
repository: the kysely backend adapter (its value transforms, where-clause
compiler, joined-result post-processing and query building) and, where the
adapter-factory implementation is not part of the excerpt, models of its
pipelines taken from the specification.  Theorems below settle the spec's
claims against these definitions.
-/

namespace BetterAuth

/-- JavaScript-style runtime values as they flow through the adapter layer.
`undefined` and `null` are distinguished the way JS does; `date iso`
stands for a `Date` instance whose `toISOString()` is `iso`. -/
inductive JValue where
  | undefined
  | null
  | str (s : String)
  | num (n : Int)
  | bool (b : Bool)
  | date (iso : String)
  deriving DecidableEq, Repr

/-- JS truthiness of a value (`if (v)`). A `Date` object is always truthy. -/
def JValue.truthy : JValue → Bool
  | .undefined => false
  | .null => false
  | .str s => s ≠ ""
  | .num n => n != 0
  | .bool b => b
  | .date _ => true

/-- JS template-literal interpolation of a value into a template string. -/
def JValue.interp : JValue → String
  | .undefined => "undefined"
  | .null => "null"
  | .str s => s
  | .num n => toString n
  | .bool b => if b then "true" else "false"
  | .date iso => iso

/-- A record/object: an ordered list of key-value pairs (JS objects keep
insertion order and have no duplicate keys). -/
abbrev Row := List (String × JValue)

/-- JS property read `obj[k]`: `undefined` when the key is absent. -/
def objGet (r : Row) (k : String) : JValue :=
  match r.lookup k with
  | some v => v
  | none => .undefined

/-- JS property write `obj[k] = v` on an association list: overwrite in
place, or append. -/
def alistSet {α : Type} (r : List (String × α)) (k : String) (v : α) :
    List (String × α) :=
  if r.any (fun p => p.1 = k) then
    r.map (fun p => if p.1 = k then (k, v) else p)
  else
    r ++ [(k, v)]

/-- JS property write `obj[k] = v` on a record. -/
def objSet (r : Row) (k : String) (v : JValue) : Row :=
  alistSet r k v

/-- Semantic field types of the schema registry. -/
inductive FieldType where
  | string
  | number
  | boolean
  | date
  | json
  deriving DecidableEq, Repr

/-- Per-field schema attributes: semantic type, optional physical-name
override (`fieldName`), uniqueness flag, optional default value. -/
structure FieldAttr where
  type : FieldType
  fieldName : Option String := none
  unique : Bool := false
  defaultValue : Option JValue := none
  deriving DecidableEq, Repr

/-- Per-model schema: physical model name and the field table. -/
structure ModelSchema where
  modelName : String
  fields : List (String × FieldAttr)
  deriving DecidableEq, Repr

/-- The schema registry, keyed by default (logical) model name. -/
abbrev Schema := List (String × ModelSchema)

/-- `schema[model]?.fields[field]` -/
def lookupField (schema : Schema) (model field : String) : Option FieldAttr :=
  (schema.lookup model).bind (fun m => m.fields.lookup field)

/-- The kysely backend dialects. -/
inductive KyselyDatabaseType where
  | sqlite
  | mysql
  | mssql
  | postgres
  deriving DecidableEq, Repr

/-- The kysely adapter's own configuration (the part the embedded
functions read). -/
structure KyselyAdapterConfig where
  type : Option KyselyDatabaseType := none
  deriving DecidableEq, Repr

/-- `const { type = "sqlite" } = config || {}` -/
def configType (config : Option KyselyAdapterConfig) : KyselyDatabaseType :=
  match config with
  | some c => c.type.getD .sqlite
  | none => .sqlite

/-- Embedding of the kysely adapter's `transformValueToDB(value, model,
field)`.  The identifier field passes through untouched; boolean-typed
fields become `1`/`0` on sqlite/mssql; `Date` values become their ISO
string on sqlite.  When the field is unknown, the source falls back to
looking up a model object by `modelName`; that object's `type` is not a
field type, so no coercion branch fires and the value passes through
(when even that lookup fails the source would raise a TypeError on
`f!.type`; every claim below stays inside the defined cases). -/
def transformValueToDB (config : Option KyselyAdapterConfig) (schema : Schema)
    (value : JValue) (model field : String) : JValue :=
  if field = "id" then value
  else
    let type := configType config
    match lookupField schema model field with
    | some f =>
        if f.type = .boolean ∧ (type = .sqlite ∨ type = .mssql)
            ∧ value ≠ .null ∧ value ≠ .undefined then
          if value.truthy then .num 1 else .num 0
        else if f.type = .date ∧ value.truthy then
          match value with
          | .date iso => if type = .sqlite then .str iso else value
          | _ => value
        else value
    | none => value

/-- Embedding of the kysely adapter's `transformValueFromDB`.  The source
walks the value and its nested objects, but its only transforming branch
(re-normalising mysql `Date` columns) is commented out, so the walk never
changes anything and the function returns its argument unchanged. -/
def transformValueFromDB (value : JValue) : JValue :=
  value

/-! ## Where-clause compiler (`convertWhereClause`) -/

/-- A value appearing in a `Where` clause: `Array.isArray` distinguishes
arrays from everything else. -/
inductive WhereValue where
  | scalar (v : JValue)
  | array (vs : List JValue)
  deriving DecidableEq, Repr

/-- `Array.isArray(value) ? value : [value]` -/
def WhereValue.toArray : WhereValue → List JValue
  | .scalar v => [v]
  | .array vs => vs

/-- Template-literal interpolation of a where value (JS arrays join their
elements with commas when stringified). -/
def WhereValue.interp : WhereValue → String
  | .scalar v => v.interp
  | .array vs => String.intercalate "," (vs.map JValue.interp)

/-- `transformValueToDB` as invoked from `convertWhereClause`, where the
value may be an array (`in`/`not_in` lists).  An array is neither `null`
nor `undefined`, is truthy, and is not a `Date` instance, so tracing the
same source body: on a boolean-typed field under sqlite/mssql it becomes
`1` (the array is truthy), and in every other case it passes through. -/
def transformWhereValueToDB (config : Option KyselyAdapterConfig)
    (schema : Schema) (value : WhereValue) (model field : String) : WhereValue :=
  match value with
  | .scalar v => .scalar (transformValueToDB config schema v model field)
  | .array _ =>
      if field = "id" then value
      else
        match lookupField schema model field with
        | some f =>
            if f.type = .boolean
                ∧ (configType config = .sqlite ∨ configType config = .mssql) then
              .scalar (.num 1)
            else value
        | none => value

/-- `String.toLowerCase`, character by character (kernel-computable
counterpart of the library string-lowering function). -/
def jsToLower (s : String) : String :=
  ⟨s.data.map Char.toLower⟩

/-- One call `eb(lhs, op, rhs)` on the kysely expression builder: the
compiled form of a single where clause. -/
structure EbCall where
  lhs : String
  op : String
  rhs : WhereValue
  deriving DecidableEq, Repr

/-- A where clause as the adapter receives it; `operator` and `connector`
are optional and defaulted by the compiler. -/
structure Where where
  field : String
  value : WhereValue
  operator : Option String := none
  connector : Option String := none
  deriving DecidableEq, Repr

/-- The `expr` closure of `convertWhereClause`: maps one clause's operator
to the `eb` call it compiles to.  `field` is the resolved physical field
name; `model` is the model the query runs against. -/
def exprFor (model field : String) (operator : String) (value : WhereValue) :
    EbCall :=
  if jsToLower operator = "in" then
    ⟨field, "in", .array value.toArray⟩
  else if jsToLower operator = "not_in" then
    ⟨field, "not in", .array value.toArray⟩
  else if operator = "contains" then
    ⟨model ++ "." ++ field, "like", .scalar (.str ("%" ++ value.interp ++ "%"))⟩
  else if operator = "starts_with" then
    ⟨model ++ "." ++ field, "like", .scalar (.str (value.interp ++ "%"))⟩
  else if operator = "ends_with" then
    ⟨model ++ "." ++ field, "like", .scalar (.str ("%" ++ value.interp))⟩
  else if operator = "eq" then
    ⟨model ++ "." ++ field, "=", value⟩
  else if operator = "ne" then
    ⟨model ++ "." ++ field, "<>", value⟩
  else if operator = "gt" then
    ⟨model ++ "." ++ field, ">", value⟩
  else if operator = "gte" then
    ⟨model ++ "." ++ field, ">=", value⟩
  else if operator = "lt" then
    ⟨model ++ "." ++ field, "<", value⟩
  else if operator = "lte" then
    ⟨model ++ "." ++ field, "<=", value⟩
  else
    ⟨model ++ "." ++ field, operator, value⟩

/-- Compilation of one clause: defaults (`operator = "="`,
`connector = "AND"`), physical-name resolution via the factory-supplied
`getFieldName`, value transformation, then the `expr` mapping. -/
def compileClause (getFieldName : String → String → String)
    (config : Option KyselyAdapterConfig) (schema : Schema)
    (model : String) (c : Where) : EbCall :=
  exprFor model (getFieldName model c.field) (c.operator.getD "=")
    (transformWhereValueToDB config schema c.value model c.field)

/-- The result of `convertWhereClause`: the two fragment lists, `null`
(`none`) when empty. -/
structure ConvertedWhere where
  and : Option (List EbCall)
  or : Option (List EbCall)
  deriving DecidableEq, Repr

/-- The `forEach` body: push the compiled clause onto the OR list when the
connector is `"OR"`, otherwise onto the AND list. -/
def whereStep (getFieldName : String → String → String)
    (config : Option KyselyAdapterConfig) (schema : Schema) (model : String)
    (acc : List EbCall × List EbCall) (c : Where) :
    List EbCall × List EbCall :=
  let e := compileClause getFieldName config schema model c
  if c.connector.getD "AND" = "OR" then (acc.1, acc.2 ++ [e])
  else (acc.1 ++ [e], acc.2)

/-- Embedding of the kysely adapter's `convertWhereClause(model, w)`. -/
def convertWhereClause (getFieldName : String → String → String)
    (config : Option KyselyAdapterConfig) (schema : Schema)
    (model : String) (w : Option (List Where)) : ConvertedWhere :=
  match w with
  | none => ⟨none, none⟩
  | some ws =>
      let c := ws.foldl (whereStep getFieldName config schema model) ([], [])
      ⟨if c.1.isEmpty then none else some c.1,
       if c.2.isEmpty then none else some c.2⟩

/-- A predicate group as attached to the query: `eb.and` over the AND
fragments or `eb.or` over the OR fragments. -/
inductive PredGroup where
  | conj (es : List EbCall)
  | disj (es : List EbCall)
  deriving DecidableEq, Repr

/-- How every query method applies a converted where clause: one `.where`
call with `eb.and(and)` when the AND list is non-null, then one with
`eb.or(or)` when the OR list is non-null. -/
def applyWhere (cw : ConvertedWhere) : List PredGroup :=
  (match cw.and with | some l => [PredGroup.conj l] | none => []) ++
  (match cw.or with | some l => [PredGroup.disj l] | none => [])

/-- Backend semantics of one group, given an evaluator for single `eb`
calls on a fixed database row. -/
def evalGroup (ev : EbCall → Bool) : PredGroup → Bool
  | .conj es => es.all ev
  | .disj es => es.any ev

/-- Backend semantics of the attached groups: successive `.where` calls
conjoin, and no group means no filtering (match all). -/
def evalApplied (ev : EbCall → Bool) (gs : List PredGroup) : Bool :=
  gs.all (evalGroup ev)

/-! ## `findMany` query building (limit / offset / ordering) -/

/-- The `sortBy` argument of `findMany`. -/
structure SortBy where
  field : String
  direction : String
  deriving DecidableEq, Repr

/-- The pagination/ordering shape of the query `findMany` builds:
which `orderBy` calls were issued (column, optional direction) and the
`top`/`limit`/`offset`/`fetch` values attached. -/
structure FindManyQuery where
  orderBy : List (String × Option String) := []
  top : Option Nat := none
  limit : Option Nat := none
  offset : Option Nat := none
  fetch : Option Nat := none
  deriving DecidableEq, Repr

/-- JS truthiness of an optional numeric argument (`if (offset)`). -/
def numTruthy : Option Nat → Bool
  | some n => n != 0
  | none => false

/-- `x || 100` on an optional numeric argument. -/
def numOr (v : Option Nat) (d : Nat) : Nat :=
  match v with
  | some n => if n != 0 then n else d
  | none => d

/-- `config?.type === "mssql"` (no defaulting here, unlike
`transformValueToDB`). -/
def isMssqlConfig (config : Option KyselyAdapterConfig) : Bool :=
  match config with
  | some c => c.type = some .mssql
  | none => false

/-- Embedding of the limit/sort/offset portion of the kysely adapter's
`findMany`: mssql uses `top` when there is no offset, everyone else gets
`limit(limit ?? 100)`; an explicit `sortBy` adds an `orderBy`; a truthy
`offset` on mssql additionally forces `orderBy(id)` when no `sortBy` was
given and switches to `offset`/`fetch`, while on every other dialect it
just sets `offset`. -/
def buildFindManyQuery (getFieldName : String → String → String)
    (config : Option KyselyAdapterConfig) (model : String)
    (limit offset : Option Nat) (sortBy : Option SortBy) : FindManyQuery :=
  let q : FindManyQuery := {}
  let q :=
    if isMssqlConfig config then
      if ¬ numTruthy offset then { q with top := some (numOr limit 100) } else q
    else { q with limit := some (numOr limit 100) }
  let q :=
    match sortBy with
    | some s =>
        { q with orderBy := q.orderBy ++ [(getFieldName model s.field, some s.direction)] }
    | none => q
  if numTruthy offset then
    if isMssqlConfig config then
      let q :=
        if sortBy.isNone then
          { q with orderBy := q.orderBy ++ [(getFieldName model "id", none)] }
        else q
      { q with offset := offset, fetch := some (numOr limit 100) }
    else { q with offset := offset }
  else q

/-! ## Adapter-factory pipelines, modelled from the spec

The `createAdapter` factory implementation itself is not part of the
excerpt (only its test suite and the wiring of its utility initialisers
are), so the following definitions are modelled from the specification's
description of the Type Transform Pipeline, the ID Policy and the create
flow, and are checked for consistency with the factory's test suite. -/

/-- The factory-level adapter configuration (capability flags and ID
policy) as the spec describes it. -/
structure AdapterConfig where
  supportsBooleans : Bool := true
  supportsDates : Bool := true
  supportsJSON : Bool := true
  disableIdGeneration : Bool := false
  deriving DecidableEq, Repr

/-- Modelled from the spec: the factory's per-field input value coercion
(spec 4.2) — booleans become 1/0 when `supportsBooleans` is false, dates
become their ISO string when `supportsDates` is false, non-matching
values pass through, and the identifier field is never coerced
(spec 4.2, identifier special case).  Object-valued fields (the JSON
case) are outside this value model.  The implementation of
`createAdapter`'s transform-input is missing from the excerpt. -/
def specTransformInputValue (cfg : AdapterConfig) (ft : FieldType)
    (field : String) (v : JValue) : JValue :=
  if field = "id" then v
  else if ft = .boolean ∧ cfg.supportsBooleans = false then
    match v with
    | .bool b => if b then .num 1 else .num 0
    | _ => v
  else if ft = .date ∧ cfg.supportsDates = false then
    match v with
    | .date iso => .str iso
    | _ => v
  else v

/-- Modelled from the spec: the factory's per-field output value coercion
(spec 4.2) — the inverse direction: 1/0/truthy back to boolean, ISO
strings back to dates, identifier untouched. -/
def specTransformOutputValue (cfg : AdapterConfig) (ft : FieldType)
    (field : String) (v : JValue) : JValue :=
  if field = "id" then v
  else if ft = .boolean ∧ cfg.supportsBooleans = false then .bool v.truthy
  else if ft = .date ∧ cfg.supportsDates = false then
    match v with
    | .str iso => .date iso
    | _ => v
  else v

/-- The semantic type the pipeline uses for a field (string when the
schema does not list it; the identifier is string-typed by
construction). -/
def fieldTypeOf (schema : Schema) (model field : String) : FieldType :=
  match lookupField schema model field with
  | some fa => fa.type
  | none => .string

/-- Modelled from the spec: the ID Policy (spec 4.3) — when generation is
disabled the input is left as-is (the identifier stays absent unless the
caller supplied one); otherwise the generated string identifier is
injected into the input before the input transform runs. -/
def specApplyIdPolicy (cfg : AdapterConfig) (genId : String) (data : Row) :
    Row :=
  if cfg.disableIdGeneration then data
  else objSet data "id" (.str genId)

/-- Modelled from the spec: the whole-record input transform — per-field
value coercion over the payload (custom hooks and key remapping are
identity when absent, as here). -/
def specInputFieldValue (cfg : AdapterConfig) (schema : Schema)
    (model : String) (f : String) (v : JValue) : JValue :=
  specTransformInputValue cfg (fieldTypeOf schema model f) f v

/-- Modelled from the spec: the whole-record input transform — per-field
value coercion over the payload (custom hooks and key remapping are
identity when absent, as here). -/
def specInputTransform (cfg : AdapterConfig) (schema : Schema)
    (model : String) (data : Row) : Row :=
  data.map (fun kv => (kv.1, specInputFieldValue cfg schema model kv.1 kv.2))

/-- Modelled from the spec: the whole-record output transform — field-by-
field coercion of present fields, synthesis of absent fields from the
field's default (`undefined` when none), so the record exposes the full
logical shape of its model, then the `select` projection last
(spec 4.2 / 4.6). -/
def modelFields (schema : Schema) (model : String) :
    List (String × FieldAttr) :=
  match schema.lookup model with
  | some ms => ms.fields
  | none => []

/-- The default-filled output record over the model's logical shape. -/
def specOutputFieldValue (cfg : AdapterConfig) (row : Row) (f : String)
    (fa : FieldAttr) : JValue :=
  match row.lookup f with
  | some v => specTransformOutputValue cfg fa.type f v
  | none => fa.defaultValue.getD .undefined

/-- The default-filled output record over the model's logical shape. -/
def specFilledRecord (cfg : AdapterConfig) (schema : Schema)
    (model : String) (row : Row) : Row :=
  (modelFields schema model).map (fun p =>
    (p.1, specOutputFieldValue cfg row p.1 p.2))

/-- Modelled from the spec: the `select` projection, applied last — only
the selected keys survive. -/
def specOutputTransform (cfg : AdapterConfig) (schema : Schema)
    (model : String) (row : Row) (select : Option (List String)) : Row :=
  match select with
  | none => specFilledRecord cfg schema model row
  | some sel =>
      (specFilledRecord cfg schema model row).filter
        (fun kv => decide (kv.1 ∈ sel))

/-- Modelled from the spec: `findOne`'s output side — the raw backend row
goes through the output transform (spec 4.6). -/
def specFindOne (cfg : AdapterConfig) (schema : Schema) (model : String)
    (row : Row) (select : Option (List String)) : Row :=
  specOutputTransform cfg schema model row select

/-- Modelled from the spec: the create flow (spec 4.6) — ID policy, then
input transform, then the backend insert (the driver stores exactly the
transformed payload and echoes it back), then output transform with the
`select` projection applied last.  Returns the pair (payload handed to
the backend driver, record returned to the caller). -/
def specCreate (cfg : AdapterConfig) (schema : Schema) (model : String)
    (genId : String) (data : Row) (select : Option (List String)) :
    Row × Row :=
  let withId := specApplyIdPolicy cfg genId data
  let backendData := specInputTransform cfg schema model withId
  (backendData, specOutputTransform cfg schema model backendData select)

/-! ## Joined queries: select aliasing and `processJoinedResults`

The adapter file is mid-merge here and carries both sides of the
conflict: the current branch aliases joined columns as
`_joined_<model>_<field>` and keeps the select references as
(model, field) pairs, while the other side aliases them as
`joined_<model>_<field>` and keeps plain strings.  Both are embedded;
the post-processing pipeline below follows the current branch. -/

/-- One entry of `allSelectsStr` on the current branch: which joined
model/physical field a requested aliased column belongs to. -/
structure SelectRef where
  joinModel : String
  fieldName : String
  deriving DecidableEq, Repr

/-- `fieldAttr.fieldName || field`: the physical field name, with the JS
`||` treating an empty override as absent. -/
def physFieldName (field : String) (fa : FieldAttr) : String :=
  match fa.fieldName with
  | some s => if s ≠ "" then s else field
  | none => field

/-- The current branch's alias for a joined column. -/
def joinAliasCurrent (joinModel physField : String) : String :=
  "_joined_" ++ joinModel ++ "_" ++ physField

/-- The other merge side's alias for a joined column. -/
def joinAliasIncoming (joinModel physField : String) : String :=
  "joined_" ++ joinModel ++ "_" ++ physField

/-- The select-reference list built in `findOne`/`findMany` before the
join query runs: for each joined model with a registered schema, every
field (the `id` attribute is first forced to a plain string field) under
its physical name. -/
def buildJoinSelects (getDefaultModelName : String → String) (schema : Schema)
    (joinModels : List String) : List SelectRef :=
  joinModels.flatMap (fun jm =>
    match schema.lookup (getDefaultModelName jm) with
    | none => []
    | some ms =>
        (alistSet ms.fields "id" { type := .string }).map
          (fun p => ⟨jm, physFieldName p.1 p.2⟩))

/-- The aliased column names the current branch requests from the
backend for a join. -/
def requestedAliasesCurrent (getDefaultModelName : String → String)
    (schema : Schema) (joinModels : List String) : List String :=
  (buildJoinSelects getDefaultModelName schema joinModels).map
    (fun s => joinAliasCurrent s.joinModel s.fieldName)

/-- The aliased column names the other merge side requests. -/
def requestedAliasesIncoming (getDefaultModelName : String → String)
    (schema : Schema) (joinModels : List String) : List String :=
  (buildJoinSelects getDefaultModelName schema joinModels).map
    (fun s => joinAliasIncoming s.joinModel s.fieldName)

/-- How `processJoinedResults` (current branch) decides whether a result
column is a joined column: its key is the current-branch alias of some
select reference. -/
def isJoinedKey (refs : List SelectRef) (key : String) : Bool :=
  (refs.find? (fun s => key = joinAliasCurrent s.joinModel s.fieldName)).isSome

/-- A join specification entry: `relation` is "inner" or "left", and the
join condition runs from `onFrom` on the base model to `onTo` on the
joined model (`on.from`/`on.to` in the source). -/
structure JoinAttr where
  relation : String
  onFrom : String
  onTo : String
  deriving DecidableEq, Repr

/-- `joinFieldAttr?.unique ?? false` for a joined model, with the field
attribute resolved on the default model name (current branch). -/
def isUniqueJoin (getFieldAttributes : String → String → Option FieldAttr)
    (getDefaultModelName : String → String) (jm : String) (ja : JoinAttr) :
    Bool :=
  match getFieldAttributes (getDefaultModelName jm) ja.onTo with
  | some fa => fa.unique
  | none => false

/-- The nested value a grouped entry holds for one joined model: a single
object or null (unique join field) or a list of objects (non-unique). -/
inductive NestedVal where
  | single (obj : Option Row)
  | many (objs : List Row)
  deriving DecidableEq, Repr

/-- One grouped output record: the base model's columns plus the nested
per-joined-model values. -/
structure GroupEntry where
  main : Row
  nested : List (String × NestedVal)
  deriving DecidableEq, Repr

/-- The column-distribution loop of `processJoinedResults`: every column
whose key is a requested joined alias is routed into that joined model's
object (under the resolved field name), everything else into the base
model's fields.  The joined-model objects start out empty for every
model in the join config (a matching alias whose model is missing from
that map would be a TypeError in the source; here the column is
dropped). -/
def splitRow (getModelName : String → String)
    (getFieldNameJ : String → String → String) (joinModels : List String)
    (refs : List SelectRef) (row : Row) : Row × List (String × Row) :=
  row.foldl
    (fun acc kv =>
      match refs.find? (fun s => kv.1 = joinAliasCurrent s.joinModel s.fieldName) with
      | some s =>
          (acc.1,
            match acc.2.lookup (getModelName s.joinModel) with
            | some obj =>
                alistSet acc.2 (getModelName s.joinModel)
                  (objSet obj (getFieldNameJ s.joinModel s.fieldName) kv.2)
            | none => acc.2)
      | none => (objSet acc.1 kv.1 kv.2, acc.2))
    ([], joinModels.foldl (fun m jm => alistSet m (getModelName jm) []) [])

/-- One step of the nested-value initialisation: null for a unique join
field, an empty list otherwise; joined models without a registered
schema are skipped. -/
def initNestedStep (getModelName getDefaultModelName : String → String)
    (getFieldAttributes : String → String → Option FieldAttr)
    (schema : Schema) (n : List (String × NestedVal)) (p : String × JoinAttr) :
    List (String × NestedVal) :=
  match schema.lookup (getDefaultModelName p.1) with
  | none => n
  | some _ =>
      alistSet n (getModelName p.1)
        (if isUniqueJoin getFieldAttributes getDefaultModelName p.1 p.2
         then .single none else .many [])

/-- Initialisation of a fresh grouped entry's nested values. -/
def initNested (getModelName getDefaultModelName : String → String)
    (getFieldAttributes : String → String → Option FieldAttr)
    (schema : Schema) (joinConfig : List (String × JoinAttr)) :
    List (String × NestedVal) :=
  joinConfig.foldl
    (initNestedStep getModelName getDefaultModelName getFieldAttributes schema)
    []

/-- One step of the add-joined-records loop for a single join-config
pair. -/
def addJoinedStep (getModelName getDefaultModelName : String → String)
    (getFieldAttributes : String → String → Option FieldAttr)
    (joinedFields : List (String × Row)) (n : List (String × NestedVal))
    (p : String × JoinAttr) : List (String × NestedVal) :=
  if isUniqueJoin getFieldAttributes getDefaultModelName p.1 p.2 then
    alistSet n (getModelName p.1)
      (.single (joinedFields.lookup (getModelName p.1)))
  else
    match n.lookup (getModelName (getDefaultModelName p.1)),
        joinedFields.lookup (getModelName p.1) with
    | some (.many l), some o =>
        if (objGet o "id").truthy
            ∧ ¬ l.any (fun item => objGet item "id" = objGet o "id") then
          alistSet n (getModelName (getDefaultModelName p.1))
            (.many (l ++ [o]))
        else n
    | _, _ => n

/-- The add-joined-records loop: unique join fields are (re)assigned the
current row's joined object; non-unique ones append it to the list only
when the list exists, the joined object's identifier is truthy and no
element with the same identifier is already present. -/
def addJoined (getModelName getDefaultModelName : String → String)
    (getFieldAttributes : String → String → Option FieldAttr)
    (joinConfig : List (String × JoinAttr)) (joinedFields : List (String × Row))
    (n : List (String × NestedVal)) : List (String × NestedVal) :=
  joinConfig.foldl
    (addJoinedStep getModelName getDefaultModelName getFieldAttributes joinedFields)
    n

/-- The base-model columns of one split row. -/
def rowMain (getModelName : String → String)
    (getFieldNameJ : String → String → String)
    (joinConfig : List (String × JoinAttr)) (refs : List SelectRef)
    (row : Row) : Row :=
  (splitRow getModelName getFieldNameJ (joinConfig.map Prod.fst) refs row).1

/-- The per-joined-model column objects of one split row. -/
def rowJoined (getModelName : String → String)
    (getFieldNameJ : String → String → String)
    (joinConfig : List (String × JoinAttr)) (refs : List SelectRef)
    (row : Row) : List (String × Row) :=
  (splitRow getModelName getFieldNameJ (joinConfig.map Prod.fst) refs row).2

/-- `mainModelFields.id` of one split row (the grouping key). -/
def rowMainId (getModelName : String → String)
    (getFieldNameJ : String → String → String)
    (joinConfig : List (String × JoinAttr)) (refs : List SelectRef)
    (row : Row) : JValue :=
  objGet (rowMain getModelName getFieldNameJ joinConfig refs row) "id"

/-- Applying the add-joined-records loop to a grouped entry. -/
def updateEntry (getModelName getDefaultModelName : String → String)
    (getFieldAttributes : String → String → Option FieldAttr)
    (joinConfig : List (String × JoinAttr)) (jf : List (String × Row))
    (e : GroupEntry) : GroupEntry :=
  ⟨e.main,
    addJoined getModelName getDefaultModelName getFieldAttributes
      joinConfig jf e.nested⟩

/-- Processing of one flat result row: split its columns, read the base
model's identifier (a falsy one skips the row), create the group entry on
first sight of that identifier, then run the add-joined-records loop on
that entry. -/
def processRow (getModelName getDefaultModelName : String → String)
    (getFieldNameJ : String → String → String)
    (getFieldAttributes : String → String → Option FieldAttr)
    (schema : Schema) (joinConfig : List (String × JoinAttr))
    (refs : List SelectRef) (acc : List (JValue × GroupEntry)) (row : Row) :
    List (JValue × GroupEntry) :=
  if ¬ (rowMainId getModelName getFieldNameJ joinConfig refs row).truthy then
    acc
  else
    (if acc.any (fun p =>
        p.1 = rowMainId getModelName getFieldNameJ joinConfig refs row) then
      acc
     else
      acc ++ [(rowMainId getModelName getFieldNameJ joinConfig refs row,
        ⟨rowMain getModelName getFieldNameJ joinConfig refs row,
          initNested getModelName getDefaultModelName getFieldAttributes
            schema joinConfig⟩)]).map
      (fun p =>
        if p.1 = rowMainId getModelName getFieldNameJ joinConfig refs row then
          (p.1, updateEntry getModelName getDefaultModelName
            getFieldAttributes joinConfig
            (rowJoined getModelName getFieldNameJ joinConfig refs row) p.2)
        else p)

/-- The insertion-ordered map from base identifiers to grouped entries
that `processJoinedResults` accumulates. -/
def groupRows (getModelName getDefaultModelName : String → String)
    (getFieldNameJ : String → String → String)
    (getFieldAttributes : String → String → Option FieldAttr)
    (schema : Schema) (joinConfig : List (String × JoinAttr))
    (refs : List SelectRef) (rows : List Row) : List (JValue × GroupEntry) :=
  rows.foldl
    (processRow getModelName getDefaultModelName getFieldNameJ
      getFieldAttributes schema joinConfig refs)
    []

/-- The result of `processJoinedResults`: the raw rows when there is no
join config or no rows, otherwise the grouped entries in insertion
order. -/
inductive ProcessedResults where
  | raw (rows : List Row)
  | grouped (entries : List GroupEntry)
  deriving DecidableEq, Repr

/-- Embedding of the kysely adapter's `processJoinedResults` (current
branch). -/
def processJoinedResults (getModelName getDefaultModelName : String → String)
    (getFieldNameJ : String → String → String)
    (getFieldAttributes : String → String → Option FieldAttr)
    (schema : Schema) (rows : List Row)
    (joinConfig : Option (List (String × JoinAttr)))
    (refs : List SelectRef) : ProcessedResults :=
  match joinConfig with
  | none => .raw rows
  | some jc =>
      if rows.isEmpty then .raw rows
      else
        .grouped ((groupRows getModelName getDefaultModelName getFieldNameJ
          getFieldAttributes schema jc refs rows).map Prod.snd)

/-! ## Association-list lemmas -/

theorem lookup_cons_ite {α : Type} (k : String) (p : String × α)
    (l : List (String × α)) :
    List.lookup k (p :: l) = if k = p.1 then some p.2 else List.lookup k l := by
  obtain ⟨a, b⟩ := p
  simp only [List.lookup_cons]
  by_cases h : k = a
  · simp [h]
  · simp [h, beq_false_of_ne h]

theorem lookup_map_set_self {α : Type} (k : String) (v : α) :
    ∀ r : List (String × α), r.any (fun p => p.1 = k) = true →
      List.lookup k (r.map (fun p => if p.1 = k then (k, v) else p)) = some v := by
  intro r
  induction r with
  | nil => simp
  | cons p rs ih =>
      intro h
      simp only [List.any_cons, Bool.or_eq_true, decide_eq_true_eq] at h
      by_cases hp : p.1 = k
      · simp only [List.map_cons, if_pos hp]
        rw [lookup_cons_ite]
        simp
      · simp only [List.map_cons, if_neg hp]
        rw [lookup_cons_ite, if_neg (fun he => hp he.symm)]
        exact ih (by simpa using h.resolve_left hp)

theorem lookup_append_single_self {α : Type} (k : String) (v : α) :
    ∀ r : List (String × α), r.any (fun p => p.1 = k) = false →
      List.lookup k (r ++ [(k, v)]) = some v := by
  intro r
  induction r with
  | nil => simp [lookup_cons_ite]
  | cons p rs ih =>
      intro h
      simp only [List.any_cons, Bool.or_eq_false_iff, decide_eq_false_iff_not] at h
      simp only [List.cons_append]
      rw [lookup_cons_ite, if_neg (fun he => h.1 he.symm)]
      exact ih (by simpa using h.2)

theorem lookup_map_set_ne {α : Type} (k k' : String) (v : α) (h : k' ≠ k) :
    ∀ r : List (String × α),
      List.lookup k' (r.map (fun p => if p.1 = k then (k, v) else p)) =
        List.lookup k' r := by
  intro r
  induction r with
  | nil => simp
  | cons p rs ih =>
      by_cases hp : p.1 = k
      · simp only [List.map_cons, if_pos hp]
        rw [lookup_cons_ite, lookup_cons_ite (l := rs)]
        rw [if_neg (by simpa using h), if_neg (fun he => h (he.trans hp))]
        exact ih
      · simp only [List.map_cons, if_neg hp]
        rw [lookup_cons_ite, lookup_cons_ite (l := rs)]
        by_cases hk : k' = p.1
        · simp [hk]
        · rw [if_neg hk, if_neg hk]
          exact ih

theorem lookup_append_single_ne {α : Type} (k k' : String) (v : α) (h : k' ≠ k) :
    ∀ r : List (String × α),
      List.lookup k' (r ++ [(k, v)]) = List.lookup k' r := by
  intro r
  induction r with
  | nil =>
      simp only [List.nil_append]
      rw [lookup_cons_ite, if_neg h]
  | cons p rs ih =>
      simp only [List.cons_append]
      rw [lookup_cons_ite, lookup_cons_ite (l := rs)]
      by_cases hk : k' = p.1
      · simp [hk]
      · rw [if_neg hk, if_neg hk]
        exact ih

theorem lookup_alistSet_self {α : Type} (r : List (String × α)) (k : String)
    (v : α) : (alistSet r k v).lookup k = some v := by
  unfold alistSet
  by_cases h : r.any (fun p => p.1 = k) = true
  · rw [if_pos h]
    exact lookup_map_set_self k v r h
  · rw [if_neg h]
    exact lookup_append_single_self k v r (Bool.eq_false_iff.mpr h)

theorem lookup_alistSet_ne {α : Type} (r : List (String × α)) (k k' : String)
    (v : α) (h : k' ≠ k) : (alistSet r k v).lookup k' = r.lookup k' := by
  unfold alistSet
  by_cases ha : r.any (fun p => p.1 = k) = true
  · rw [if_pos ha]
    exact lookup_map_set_ne k k' v h r
  · rw [if_neg ha]
    exact lookup_append_single_ne k k' v h r

theorem alistSet_map_fst {α : Type} (r : List (String × α)) (k : String) (v : α)
    (h : r.any (fun p => p.1 = k) = true) :
    (alistSet r k v).map Prod.fst = r.map Prod.fst := by
  simp only [alistSet, h, if_true]
  rw [List.map_map]
  refine List.map_congr_left (fun p _ => ?_)
  by_cases hp : p.1 = k <;> simp [hp]

theorem lookup_mapVal {α β : Type} (r : List (String × α))
    (g : String → α → β) (k : String) :
    (r.map (fun p => (p.1, g p.1 p.2))).lookup k = (r.lookup k).map (g k) := by
  induction r with
  | nil => simp
  | cons p rs ih =>
      simp only [List.map_cons]
      rw [lookup_cons_ite, lookup_cons_ite (l := rs)]
      by_cases hk : k = p.1
      · simp [hk]
      · rw [if_neg hk, if_neg hk]
        exact ih

theorem keys_mapVal {α β : Type} (r : List (String × α)) (g : String → α → β) :
    (r.map (fun p => (p.1, g p.1 p.2))).map Prod.fst = r.map Prod.fst := by
  rw [List.map_map]
  rfl

theorem mem_of_lookup {α : Type} :
    ∀ (l : List (String × α)) (k : String) (v : α),
      l.lookup k = some v → (k, v) ∈ l := by
  intro l k v
  induction l with
  | nil => simp
  | cons p rs ih =>
      rw [lookup_cons_ite]
      by_cases h : k = p.1
      · rw [if_pos h]
        intro h2
        rw [Option.some_inj] at h2
        subst h2
        subst h
        exact List.mem_cons_self _ _
      · rw [if_neg h]
        intro hv
        exact List.mem_cons_of_mem _ (ih hv)

theorem mem_alistSet {α : Type} (r : List (String × α)) (k : String) (v : α) :
    ∀ x ∈ alistSet r k v, x = (k, v) ∨ x ∈ r := by
  intro x hx
  unfold alistSet at hx
  by_cases h : r.any (fun p => p.1 = k) = true
  · rw [if_pos h] at hx
    obtain ⟨y, hy, hxy⟩ := List.mem_map.mp hx
    by_cases hk : y.1 = k
    · left
      rw [← hxy, if_pos hk]
    · right
      rw [← hxy, if_neg hk]
      exact hy
  · rw [if_neg h] at hx
    rcases List.mem_append.mp hx with h1 | h1
    · right
      exact h1
    · left
      simpa using h1

theorem lookup_objSet_self (r : Row) (k : String) (v : JValue) :
    (objSet r k v).lookup k = some v :=
  lookup_alistSet_self r k v

theorem lookup_objSet_ne (r : Row) (k k' : String) (v : JValue)
    (h : k' ≠ k) : (objSet r k v).lookup k' = r.lookup k' :=
  lookup_alistSet_ne r k k' v h

/-! ## Claim theorems -/

/-- Claim C8: the identifier field is never type-coerced by the backend
adapter's value transforms: `transformValueToDB` returns an `id` value
unchanged for every configuration, schema and model, and
`transformValueFromDB` returns every value unchanged. -/
theorem id_field_transform_identity
    (config : Option KyselyAdapterConfig) (schema : Schema) (model : String)
    (value : JValue) :
    transformValueToDB config schema value model "id" = value ∧
    transformValueFromDB value = value := by
  constructor
  · simp [transformValueToDB]
  · rfl

/-- Claim C10 (implicit defaulting): a where clause with no operator
compiles to a direct `=` comparison on the resolved field, and a clause
with no connector is placed in the AND group. -/
theorem where_defaults_eq_and (getFieldName : String → String → String)
    (config : Option KyselyAdapterConfig) (schema : Schema)
    (model f : String) (v : WhereValue) :
    compileClause getFieldName config schema model ⟨f, v, none, none⟩ =
      ⟨model ++ "." ++ getFieldName model f, "=",
        transformWhereValueToDB config schema v model f⟩ ∧
    convertWhereClause getFieldName config schema model
        (some [⟨f, v, none, none⟩]) =
      ⟨some [compileClause getFieldName config schema model ⟨f, v, none, none⟩],
        none⟩ := by
  constructor
  · rfl
  · rfl

/-- Claim C7 counterexample: on the default sqlite dialect, a `findMany`
call with an offset and no explicit `sortBy` issues no `orderBy` at all —
the query carries no deterministic ordering. -/
theorem offset_without_sortby_unordered_on_sqlite :
    (buildFindManyQuery (fun _ f => f) (some { type := some .sqlite }) "user"
      none (some 10) none).orderBy = [] := by
  rfl

/-- Claim C7 amended: only under the mssql dialect does a `findMany` call
with a truthy offset and no explicit `sortBy` force a deterministic
ordering by the identifier field. -/
theorem offset_forces_id_order_on_mssql (gfn : String → String → String)
    (config : Option KyselyAdapterConfig) (model : String)
    (limit offset : Option Nat) (sortBy : Option SortBy)
    (h1 : isMssqlConfig config = true) (h2 : numTruthy offset = true)
    (h3 : sortBy = none) :
    (buildFindManyQuery gfn config model limit offset sortBy).orderBy =
      [(gfn model "id", none)] := by
  subst h3
  simp [buildFindManyQuery, h1, h2]

/-- Concrete instance of the amended C7 theorem, all hypotheses
discharged. -/
theorem offset_forces_id_order_on_mssql_witness :
    (buildFindManyQuery (fun _ f => f) (some { type := some .mssql }) "user"
      none (some 10) none).orderBy = [("id", none)] :=
  offset_forces_id_order_on_mssql (fun _ f => f)
    (some { type := some .mssql }) "user" none (some 10) none rfl rfl rfl

/-- Claim C9 counterexample: the current branch requests joined columns
under `_joined_<model>_<field>` (leading underscore), not under the
claimed shape `joined_<model>_<field>`. -/
theorem join_alias_not_claimed_shape :
    requestedAliasesCurrent (fun m => m)
        [("session",
          { modelName := "session",
            fields := [("id", { type := FieldType.string })] })]
        ["session"] = ["_joined_session_id"] ∧
      "_joined_session_id" ≠ joinAliasIncoming "session" "id" := by
  constructor
  · rfl
  · decide

/-- Claim C9 amended: the current branch's alias shape is
`_joined_<model>_<field>`; the superseded merge side's shape is
`joined_<model>_<field>`; and the current branch's post-processor
recognizes a result column as joined exactly when its key is one of the
aliases the select builder requested. -/
theorem join_alias_shape_consistency :
    (∀ jm f, joinAliasCurrent jm f = "_joined_" ++ jm ++ "_" ++ f) ∧
    (∀ jm f, joinAliasIncoming jm f = "joined_" ++ jm ++ "_" ++ f) ∧
    (∀ (gdm : String → String) (schema : Schema) (jms : List String)
        (key : String),
      isJoinedKey (buildJoinSelects gdm schema jms) key = true ↔
        key ∈ requestedAliasesCurrent gdm schema jms) := by
  refine ⟨fun _ _ => rfl, fun _ _ => rfl,
    fun gdm schema jms key => ?_⟩
  simp only [isJoinedKey, requestedAliasesCurrent, List.find?_isSome,
    List.mem_map, decide_eq_true_eq]
  constructor
  · rintro ⟨s, hs, he⟩
    exact ⟨s, hs, he.symm⟩
  · rintro ⟨s, hs, he⟩
    exact ⟨s, hs, he.symm⟩

/-- Claim C4: the operator mapping of the where-clause compiler —
`in`/`not_in` compare against the value as an array (a non-array value is
wrapped into a one-element array), `contains`/`starts_with`/`ends_with`
compile to `like` patterns with wildcards on both sides / the trailing
side / the leading side, the six comparison operators compile to their
direct binary comparisons, and an unrecognized operator is passed through
unchanged. -/
theorem where_operator_mapping (gfn : String → String → String)
    (config : Option KyselyAdapterConfig) (schema : Schema)
    (model f : String) (v : WhereValue) (conn : Option String) :
    (compileClause gfn config schema model ⟨f, v, some "in", conn⟩ =
      ⟨gfn model f, "in",
        .array (transformWhereValueToDB config schema v model f).toArray⟩) ∧
    (compileClause gfn config schema model ⟨f, v, some "not_in", conn⟩ =
      ⟨gfn model f, "not in",
        .array (transformWhereValueToDB config schema v model f).toArray⟩) ∧
    (∀ s : JValue, (WhereValue.scalar s).toArray = [s]) ∧
    (∀ l : List JValue, (WhereValue.array l).toArray = l) ∧
    (compileClause gfn config schema model ⟨f, v, some "contains", conn⟩ =
      ⟨model ++ "." ++ gfn model f, "like",
        .scalar (.str ("%" ++
          (transformWhereValueToDB config schema v model f).interp ++ "%"))⟩) ∧
    (compileClause gfn config schema model ⟨f, v, some "starts_with", conn⟩ =
      ⟨model ++ "." ++ gfn model f, "like",
        .scalar (.str
          ((transformWhereValueToDB config schema v model f).interp ++ "%"))⟩) ∧
    (compileClause gfn config schema model ⟨f, v, some "ends_with", conn⟩ =
      ⟨model ++ "." ++ gfn model f, "like",
        .scalar (.str ("%" ++
          (transformWhereValueToDB config schema v model f).interp))⟩) ∧
    (compileClause gfn config schema model ⟨f, v, some "eq", conn⟩ =
      ⟨model ++ "." ++ gfn model f, "=",
        transformWhereValueToDB config schema v model f⟩) ∧
    (compileClause gfn config schema model ⟨f, v, some "ne", conn⟩ =
      ⟨model ++ "." ++ gfn model f, "<>",
        transformWhereValueToDB config schema v model f⟩) ∧
    (compileClause gfn config schema model ⟨f, v, some "gt", conn⟩ =
      ⟨model ++ "." ++ gfn model f, ">",
        transformWhereValueToDB config schema v model f⟩) ∧
    (compileClause gfn config schema model ⟨f, v, some "gte", conn⟩ =
      ⟨model ++ "." ++ gfn model f, ">=",
        transformWhereValueToDB config schema v model f⟩) ∧
    (compileClause gfn config schema model ⟨f, v, some "lt", conn⟩ =
      ⟨model ++ "." ++ gfn model f, "<",
        transformWhereValueToDB config schema v model f⟩) ∧
    (compileClause gfn config schema model ⟨f, v, some "lte", conn⟩ =
      ⟨model ++ "." ++ gfn model f, "<=",
        transformWhereValueToDB config schema v model f⟩) ∧
    (∀ op : String, jsToLower op ≠ "in" → jsToLower op ≠ "not_in" →
      op ∉ (["contains", "starts_with", "ends_with", "eq", "ne", "gt",
        "gte", "lt", "lte"] : List String) →
      compileClause gfn config schema model ⟨f, v, some op, conn⟩ =
        ⟨model ++ "." ++ gfn model f, op,
          transformWhereValueToDB config schema v model f⟩) := by
  refine ⟨rfl, rfl, fun _ => rfl, fun _ => rfl, rfl, rfl, rfl, rfl, rfl,
    rfl, rfl, rfl, rfl, ?_⟩
  intro op h1 h2 h3
  simp only [List.mem_cons, List.not_mem_nil, or_false, not_or] at h3
  obtain ⟨e1, e2, e3, e4, e5, e6, e7, e8, e9⟩ := h3
  simp only [compileClause, exprFor, Option.getD_some]
  rw [if_neg h1, if_neg h2, if_neg e1, if_neg e2, if_neg e3, if_neg e4,
    if_neg e5, if_neg e6, if_neg e7, if_neg e8, if_neg e9]

/-- Concrete instance of the C4 theorem at an unrecognized operator, all
hypotheses discharged. -/
theorem where_operator_mapping_witness :
    compileClause (fun _ f => f) none [] "user"
        ⟨"name", .scalar (.str "a"), some "regex", none⟩ =
      ⟨"user" ++ "." ++ "name", "regex", .scalar (.str "a")⟩ := by
  have h := where_operator_mapping (fun _ f => f) none [] "user" "name"
    (.scalar (.str "a")) none
  exact h.2.2.2.2.2.2.2.2.2.2.2.2.2 "regex" (by decide) (by decide) (by decide)

/-- The clauses whose (defaulted) connector is not `"OR"`, compiled. -/
def andClauses (getFieldName : String → String → String)
    (config : Option KyselyAdapterConfig) (schema : Schema) (model : String)
    (ws : List Where) : List EbCall :=
  (ws.filter (fun c => ¬ c.connector.getD "AND" = "OR")).map
    (compileClause getFieldName config schema model)

/-- The clauses whose connector is `"OR"`, compiled. -/
def orClauses (getFieldName : String → String → String)
    (config : Option KyselyAdapterConfig) (schema : Schema) (model : String)
    (ws : List Where) : List EbCall :=
  (ws.filter (fun c => c.connector.getD "AND" = "OR")).map
    (compileClause getFieldName config schema model)

theorem foldl_whereStep (getFieldName : String → String → String)
    (config : Option KyselyAdapterConfig) (schema : Schema) (model : String) :
    ∀ (ws : List Where) (acc : List EbCall × List EbCall),
      ws.foldl (whereStep getFieldName config schema model) acc =
        (acc.1 ++ andClauses getFieldName config schema model ws,
         acc.2 ++ orClauses getFieldName config schema model ws) := by
  intro ws
  induction ws with
  | nil => intro acc; simp [andClauses, orClauses]
  | cons c cs ih =>
      intro acc
      simp only [List.foldl_cons]
      rw [ih]
      by_cases h : c.connector.getD "AND" = "OR"
      · simp [whereStep, h, andClauses, orClauses, List.filter_cons]
      · simp [whereStep, h, andClauses, orClauses, List.filter_cons]

/-- Claim C3: OR-connected clauses are grouped apart from AND-connected
ones; the query applies the conjunction of the AND group with the
disjunction of the OR group when both are non-empty, whichever group
alone when only one is present, and no filtering at all when the where
list is empty or absent. -/
theorem where_connector_grouping (getFieldName : String → String → String)
    (config : Option KyselyAdapterConfig) (schema : Schema) (model : String)
    (ws : List Where) (ev : EbCall → Bool) :
    (convertWhereClause getFieldName config schema model (some ws)).and =
      (if andClauses getFieldName config schema model ws = [] then none
       else some (andClauses getFieldName config schema model ws)) ∧
    (convertWhereClause getFieldName config schema model (some ws)).or =
      (if orClauses getFieldName config schema model ws = [] then none
       else some (orClauses getFieldName config schema model ws)) ∧
    evalApplied ev
        (applyWhere (convertWhereClause getFieldName config schema model
          (some ws))) =
      ((andClauses getFieldName config schema model ws).all ev &&
       (if orClauses getFieldName config schema model ws = [] then true
        else (orClauses getFieldName config schema model ws).any ev)) ∧
    convertWhereClause getFieldName config schema model none =
      ⟨none, none⟩ ∧
    evalApplied ev
      (applyWhere (convertWhereClause getFieldName config schema model none)) =
      true := by
  have hc : convertWhereClause getFieldName config schema model (some ws) =
      ⟨if andClauses getFieldName config schema model ws = [] then none
        else some (andClauses getFieldName config schema model ws),
       if orClauses getFieldName config schema model ws = [] then none
        else some (orClauses getFieldName config schema model ws)⟩ := by
    simp only [convertWhereClause]
    rw [foldl_whereStep]
    simp [List.isEmpty_iff]
  refine ⟨by rw [hc], by rw [hc], ?_, rfl, rfl⟩
  rw [hc]
  by_cases ha : andClauses getFieldName config schema model ws = [] <;>
    by_cases ho : orClauses getFieldName config schema model ws = [] <;>
      simp [ha, ho, applyWhere, evalApplied, evalGroup]

/-- Lookup of a field in the default-filled output record. -/
theorem lookup_specFilledRecord (cfg : AdapterConfig) (schema : Schema)
    (model f : String) (row : Row) (ms : ModelSchema) (fa : FieldAttr)
    (hms : schema.lookup model = some ms)
    (hfld : ms.fields.lookup f = some fa) :
    (specFilledRecord cfg schema model row).lookup f =
      some (specOutputFieldValue cfg row f fa) := by
  unfold specFilledRecord
  have hmf : modelFields schema model = ms.fields := by
    unfold modelFields
    rw [hms]
  rw [hmf, lookup_mapVal, hfld]
  rfl

/-- A small concrete user model used by the concrete instances below. -/
def userModelSchema : ModelSchema :=
  { modelName := "user",
    fields := [("id", { type := FieldType.string }),
      ("name", { type := FieldType.string }),
      ("email", { type := FieldType.string })] }

/-- Registry holding only the user model. -/
def userSchema : Schema := [("user", userModelSchema)]

/-- A user model carrying a boolean field. -/
def flagModelSchema : ModelSchema :=
  { modelName := "user",
    fields := [("id", { type := FieldType.string }),
      ("flag", { type := FieldType.boolean })] }

/-- Registry holding only the boolean-field user model. -/
def flagSchema : Schema := [("user", flagModelSchema)]

/-- Claim C1: with `supportsBooleans = false`, a created boolean field
value reaches the backend driver as `1` (for `true`) or `0` (for
`false`), while the record returned by the create call, and a `findOne`
over the stored row, expose it as the original boolean. -/
theorem boolean_capability_roundtrip (cfg : AdapterConfig) (schema : Schema)
    (model genId f : String) (data : Row) (fa : FieldAttr) (b : Bool)
    (hb : cfg.supportsBooleans = false)
    (hf : f ≠ "id")
    (hl : lookupField schema model f = some fa)
    (ht : fa.type = .boolean)
    (hd : data.lookup f = some (.bool b)) :
    (specCreate cfg schema model genId data none).1.lookup f =
      some (if b then JValue.num 1 else JValue.num 0) ∧
    (specCreate cfg schema model genId data none).2.lookup f =
      some (.bool b) ∧
    (specFindOne cfg schema model
        (specCreate cfg schema model genId data none).1 none).lookup f =
      some (.bool b) := by
  have hw : (specApplyIdPolicy cfg genId data).lookup f = some (.bool b) := by
    unfold specApplyIdPolicy
    by_cases hg : cfg.disableIdGeneration = true
    · simp [hg, hd]
    · simp only [Bool.not_eq_true] at hg
      simp only [hg, Bool.false_eq_true, if_false]
      rw [lookup_objSet_ne data "id" f (.str genId) hf]
      exact hd
  have hbd : (specInputTransform cfg schema model
      (specApplyIdPolicy cfg genId data)).lookup f =
      some (if b then JValue.num 1 else JValue.num 0) := by
    unfold specInputTransform
    rw [lookup_mapVal, hw]
    simp only [Option.map_some']
    unfold specInputFieldValue specTransformInputValue fieldTypeOf
    rw [hl]
    simp [hf, ht, hb]
  obtain ⟨ms, hms, hfld⟩ := Option.bind_eq_some.mp hl
  have hret : (specFilledRecord cfg schema model
      (specInputTransform cfg schema model (specApplyIdPolicy cfg genId data))
      ).lookup f = some (.bool b) := by
    rw [lookup_specFilledRecord cfg schema model f _ ms fa hms hfld]
    unfold specOutputFieldValue
    rw [hbd]
    unfold specTransformOutputValue
    simp only [hf, if_false, ht, hb]
    cases b <;> simp [JValue.truthy]
  exact ⟨hbd, hret, hret⟩

/-- Concrete instance of the C1 theorem, all hypotheses discharged: a
boolean `flag` set to `true` is stored as `1` and read back as `true`. -/
theorem boolean_capability_roundtrip_witness :
    (specCreate { supportsBooleans := false } flagSchema "user" "gid"
        [("flag", .bool true)] none).1.lookup "flag" = some (.num 1) ∧
    (specCreate { supportsBooleans := false } flagSchema "user" "gid"
        [("flag", .bool true)] none).2.lookup "flag" = some (.bool true) := by
  have h := boolean_capability_roundtrip { supportsBooleans := false }
    flagSchema "user" "gid" "flag" [("flag", .bool true)]
    { type := FieldType.boolean } true rfl (by decide) rfl rfl rfl
  exact ⟨h.1, h.2.1⟩

/-- Claim C2: with ID generation enabled, the payload handed to the
backend driver and the returned record carry the generated non-empty
string identifier; with generation disabled and no identifier supplied,
the identifier is absent from the backend payload and `undefined` in the
returned record. -/
theorem id_generation_identifier_invariant (cfg : AdapterConfig)
    (schema : Schema) (model genId : String) (data : Row) (ms : ModelSchema)
    (idFa : FieldAttr)
    (hms : schema.lookup model = some ms)
    (hid : ms.fields.lookup "id" = some idFa)
    (hg : genId ≠ "") :
    (cfg.disableIdGeneration = false →
      (∃ s, s ≠ "" ∧
        (specCreate cfg schema model genId data none).1.lookup "id" =
          some (.str s) ∧
        (specCreate cfg schema model genId data none).2.lookup "id" =
          some (.str s))) ∧
    (cfg.disableIdGeneration = true → data.lookup "id" = none →
      idFa.defaultValue = none →
      (specCreate cfg schema model genId data none).1.lookup "id" = none ∧
      (specCreate cfg schema model genId data none).2.lookup "id" =
        some .undefined) := by
  constructor
  · intro hgen
    have hbd : (specInputTransform cfg schema model
        (specApplyIdPolicy cfg genId data)).lookup "id" =
        some (.str genId) := by
      unfold specInputTransform
      rw [lookup_mapVal]
      unfold specApplyIdPolicy
      rw [hgen]
      simp only [Bool.false_eq_true, if_false]
      rw [lookup_objSet_self]
      simp [specInputFieldValue, specTransformInputValue]
    refine ⟨genId, hg, hbd, ?_⟩
    show (specFilledRecord cfg schema model _).lookup "id" = some (.str genId)
    rw [lookup_specFilledRecord cfg schema model "id" _ ms idFa hms hid]
    unfold specOutputFieldValue
    rw [hbd]
    simp [specTransformOutputValue]
  · intro hgen hd hdv
    have hbd : (specInputTransform cfg schema model
        (specApplyIdPolicy cfg genId data)).lookup "id" = none := by
      unfold specInputTransform
      rw [lookup_mapVal]
      unfold specApplyIdPolicy
      rw [hgen]
      simp [hd]
    refine ⟨hbd, ?_⟩
    show (specFilledRecord cfg schema model _).lookup "id" = some .undefined
    rw [lookup_specFilledRecord cfg schema model "id" _ ms idFa hms hid]
    unfold specOutputFieldValue
    rw [hbd]
    simp [hdv]

/-- Concrete instance of the C2 theorem, all hypotheses discharged, in
both the generation-enabled and the generation-disabled configuration. -/
theorem id_generation_identifier_invariant_witness :
    (∃ t, t ≠ "" ∧
      (specCreate {} userSchema "user" "gid" [] none).1.lookup "id" =
        some (.str t) ∧
      (specCreate {} userSchema "user" "gid" [] none).2.lookup "id" =
        some (.str t)) ∧
    ((specCreate { disableIdGeneration := true } userSchema "user" "gid" []
        none).1.lookup "id" = none ∧
      (specCreate { disableIdGeneration := true } userSchema "user" "gid" []
        none).2.lookup "id" = some .undefined) := by
  constructor
  · exact (id_generation_identifier_invariant {} userSchema "user" "gid" []
      userModelSchema { type := FieldType.string } rfl rfl (by decide)).1 rfl
  · exact (id_generation_identifier_invariant { disableIdGeneration := true }
      userSchema "user" "gid" [] userModelSchema { type := FieldType.string }
      rfl rfl (by decide)).2 rfl rfl rfl

/-- Claim C6: a create (or read) call with `select: [f1, f2]`, where both
fields belong to the model, returns an object whose keys are exactly
`f1` and `f2`. -/
theorem select_projection_exact_keys (cfg : AdapterConfig) (schema : Schema)
    (model genId : String) (data : Row) (f1 f2 : String) (ms : ModelSchema)
    (k : String)
    (hms : schema.lookup model = some ms)
    (h1 : f1 ∈ ms.fields.map Prod.fst)
    (h2 : f2 ∈ ms.fields.map Prod.fst) :
    k ∈ ((specCreate cfg schema model genId data (some [f1, f2])).2.map
        Prod.fst) ↔
      (k = f1 ∨ k = f2) := by
  have hfilter : ∀ (l : Row) (sel : List String) (kz : String),
      (kz ∈ (l.filter (fun kv => decide (kv.1 ∈ sel))).map Prod.fst) ↔
        (kz ∈ l.map Prod.fst ∧ kz ∈ sel) := by
    intro l sel kz
    simp only [List.mem_map, List.mem_filter, decide_eq_true_eq]
    constructor
    · rintro ⟨x, ⟨hx, hs⟩, hk⟩
      exact ⟨⟨x, hx, hk⟩, hk ▸ hs⟩
    · rintro ⟨⟨x, hx, hk⟩, hs⟩
      exact ⟨x, ⟨hx, hk.symm ▸ hs⟩, hk⟩
  show k ∈ ((specFilledRecord cfg schema model
      (specInputTransform cfg schema model (specApplyIdPolicy cfg genId data))
      ).filter (fun kv => decide (kv.1 ∈ [f1, f2]))).map Prod.fst ↔ _
  rw [hfilter]
  unfold specFilledRecord
  rw [keys_mapVal]
  unfold modelFields
  rw [hms]
  simp only [List.mem_cons, List.not_mem_nil, or_false]
  constructor
  · rintro ⟨_, h⟩
    exact h
  · intro h
    refine ⟨?_, h⟩
    rcases h with h | h
    · rw [h]; exact h1
    · rw [h]; exact h2

/-- Concrete instance of the C6 theorem, all hypotheses discharged: with
`select: [email, id]` the email key is kept and the name key is gone. -/
theorem select_projection_exact_keys_witness :
    ("email" ∈ ((specCreate {} userSchema "user" "gid"
        [("name", .str "n"), ("email", .str "e")]
        (some ["email", "id"])).2.map Prod.fst)) ∧
    ¬ ("name" ∈ ((specCreate {} userSchema "user" "gid"
        [("name", .str "n"), ("email", .str "e")]
        (some ["email", "id"])).2.map Prod.fst)) := by
  have he := select_projection_exact_keys {} userSchema "user" "gid"
    [("name", .str "n"), ("email", .str "e")] "email" "id"
    userModelSchema "email" rfl (by decide) (by decide)
  have hn := select_projection_exact_keys {} userSchema "user" "gid"
    [("name", .str "n"), ("email", .str "e")] "email" "id"
    userModelSchema "name" rfl (by decide) (by decide)
  constructor
  · exact he.mpr (Or.inl rfl)
  · intro hmem
    rcases hn.mp hmem with h | h <;> simp at h

/-! ## Invariants of the joined-result post-processing -/

/-- The deduplication invariant of a nested value: a list slot holds
objects with pairwise-distinct, truthy identifiers. -/
def ManyInvVal : NestedVal → Prop
  | .single _ => True
  | .many l =>
      (l.map (fun o => objGet o "id")).Nodup ∧
      ∀ o ∈ l, (objGet o "id").truthy = true

/-- A nested slot that holds a single-object value keeps holding a
single-object value across one add-joined step. -/
theorem addJoinedStep_single_persist (gmn gdm : String → String)
    (gfa : String → String → Option FieldAttr)
    (jf : List (String × Row)) (n : List (String × NestedVal))
    (p : String × JoinAttr) (k : String)
    (h : ∃ x, n.lookup k = some (.single x)) :
    ∃ x, (addJoinedStep gmn gdm gfa jf n p).lookup k = some (.single x) := by
  obtain ⟨x, hx⟩ := h
  unfold addJoinedStep
  by_cases hu : isUniqueJoin gfa gdm p.1 p.2 = true
  · rw [if_pos hu]
    by_cases hk : k = gmn p.1
    · subst hk
      exact ⟨_, lookup_alistSet_self _ _ _⟩
    · refine ⟨x, ?_⟩
      rw [lookup_alistSet_ne _ _ _ _ hk]
      exact hx
  · rw [if_neg hu]
    cases hm : n.lookup (gmn (gdm p.1)) with
    | none => exact ⟨x, hx⟩
    | some nv =>
        cases nv with
        | single obj => exact ⟨x, hx⟩
        | many l =>
            cases hjo : jf.lookup (gmn p.1) with
            | none => exact ⟨x, hx⟩
            | some o =>
                dsimp only
                by_cases hg : (objGet o "id").truthy
                    ∧ ¬ l.any (fun item => objGet item "id" = objGet o "id")
                · rw [if_pos hg]
                  by_cases hk : k = gmn (gdm p.1)
                  · subst hk
                    rw [hx] at hm
                    simp at hm
                  · refine ⟨x, ?_⟩
                    rw [lookup_alistSet_ne _ _ _ _ hk]
                    exact hx
                · rw [if_neg hg]
                  exact ⟨x, hx⟩

/-- A unique join-config pair forces its slot to a single-object value. -/
theorem addJoinedStep_single_establish (gmn gdm : String → String)
    (gfa : String → String → Option FieldAttr)
    (jf : List (String × Row)) (n : List (String × NestedVal))
    (p : String × JoinAttr) (hu : isUniqueJoin gfa gdm p.1 p.2 = true) :
    ∃ x, (addJoinedStep gmn gdm gfa jf n p).lookup (gmn p.1) =
      some (.single x) := by
  unfold addJoinedStep
  rw [if_pos hu]
  exact ⟨_, lookup_alistSet_self _ _ _⟩

/-- Single-object slots persist across the whole add-joined loop. -/
theorem addJoined_single_persist (gmn gdm : String → String)
    (gfa : String → String → Option FieldAttr)
    (jf : List (String × Row)) (k : String) :
    ∀ (l : List (String × JoinAttr)) (n : List (String × NestedVal)),
      (∃ x, n.lookup k = some (.single x)) →
      ∃ x, (l.foldl (addJoinedStep gmn gdm gfa jf) n).lookup k =
        some (.single x) := by
  intro l
  induction l with
  | nil => intro n h; exact h
  | cons p ps ih =>
      intro n h
      exact ih _ (addJoinedStep_single_persist gmn gdm gfa jf n p k h)

/-- After the add-joined loop, every unique join-config pair's slot holds
a single-object value, whatever the starting state was. -/
theorem addJoined_single (gmn gdm : String → String)
    (gfa : String → String → Option FieldAttr)
    (jf : List (String × Row)) :
    ∀ (l : List (String × JoinAttr)) (n : List (String × NestedVal))
      (q : String × JoinAttr), q ∈ l → isUniqueJoin gfa gdm q.1 q.2 = true →
      ∃ x, (l.foldl (addJoinedStep gmn gdm gfa jf) n).lookup (gmn q.1) =
        some (.single x) := by
  intro l
  induction l with
  | nil => intro n q hq; cases hq
  | cons p ps ih =>
      intro n q hq hu
      rcases List.mem_cons.mp hq with hq | hq
      · subst hq
        simp only [List.foldl_cons]
        exact addJoined_single_persist gmn gdm gfa jf (gmn q.1) ps _
          (addJoinedStep_single_establish gmn gdm gfa jf n q hu)
      · exact ih _ q hq hu

/-- The deduplication invariant holds for every slot of a freshly
initialised entry. -/
theorem manyInv_initNested (gmn gdm : String → String)
    (gfa : String → String → Option FieldAttr) (schema : Schema) :
    ∀ (l : List (String × JoinAttr)) (n : List (String × NestedVal)),
      (∀ p ∈ n, ManyInvVal p.2) →
      ∀ p ∈ l.foldl (initNestedStep gmn gdm gfa schema) n,
        ManyInvVal p.2 := by
  intro l
  induction l with
  | nil => intro n h; exact h
  | cons q qs ih =>
      intro n h
      simp only [List.foldl_cons]
      refine ih _ ?_
      unfold initNestedStep
      cases hs : schema.lookup (gdm q.1) with
      | none => exact h
      | some ms =>
          intro p hp
          rcases mem_alistSet _ _ _ p hp with hnew | hold
          · rw [hnew]
            by_cases hu : isUniqueJoin gfa gdm q.1 q.2 = true
            · simp [hu, ManyInvVal]
            · simp only [Bool.not_eq_true] at hu
              simp [hu, ManyInvVal]
          · exact h p hold

/-- One add-joined step preserves the deduplication invariant: a list
slot only ever grows by an object whose identifier is truthy and not yet
present. -/
theorem manyInv_addJoinedStep (gmn gdm : String → String)
    (gfa : String → String → Option FieldAttr)
    (jf : List (String × Row)) (n : List (String × NestedVal))
    (q : String × JoinAttr) (h : ∀ p ∈ n, ManyInvVal p.2) :
    ∀ p ∈ addJoinedStep gmn gdm gfa jf n q, ManyInvVal p.2 := by
  unfold addJoinedStep
  by_cases hu : isUniqueJoin gfa gdm q.1 q.2 = true
  · rw [if_pos hu]
    intro p hp
    rcases mem_alistSet _ _ _ p hp with hnew | hold
    · rw [hnew]
      trivial
    · exact h p hold
  · rw [if_neg hu]
    cases hm : n.lookup (gmn (gdm q.1)) with
    | none => exact h
    | some nv =>
        cases nv with
        | single obj => exact h
        | many l =>
            cases hjo : jf.lookup (gmn q.1) with
            | none => exact h
            | some o =>
                dsimp only
                by_cases hg : (objGet o "id").truthy
                    ∧ ¬ l.any (fun item => objGet item "id" = objGet o "id")
                · rw [if_pos hg]
                  intro p hp
                  rcases mem_alistSet _ _ _ p hp with hnew | hold
                  · rw [hnew]
                    have hinv := h _ (mem_of_lookup _ _ _ hm)
                    obtain ⟨hnd, htr⟩ := hinv
                    refine ⟨?_, ?_⟩
                    · rw [List.map_append]
                      simp only [List.map_cons, List.map_nil]
                      rw [List.nodup_append]
                      refine ⟨hnd, List.nodup_singleton _, ?_⟩
                      intro a ha
                      simp only [List.mem_singleton]
                      intro hcontra
                      obtain ⟨item, hitem, hida⟩ := List.mem_map.mp ha
                      have : l.any (fun item =>
                          objGet item "id" = objGet o "id") = true := by
                        rw [List.any_eq_true]
                        exact ⟨item, hitem, by
                          simp only [decide_eq_true_eq]
                          rw [hida, hcontra]⟩
                      exact hg.2 this
                    · intro o' ho'
                      rcases List.mem_append.mp ho' with h1 | h1
                      · exact htr o' h1
                      · rw [List.mem_singleton.mp h1]
                        exact hg.1
                  · exact h p hold
                · rw [if_neg hg]
                  exact h

/-- The whole add-joined loop preserves the deduplication invariant. -/
theorem manyInv_addJoined (gmn gdm : String → String)
    (gfa : String → String → Option FieldAttr)
    (jf : List (String × Row)) :
    ∀ (l : List (String × JoinAttr)) (n : List (String × NestedVal)),
      (∀ p ∈ n, ManyInvVal p.2) →
      ∀ p ∈ l.foldl (addJoinedStep gmn gdm gfa jf) n, ManyInvVal p.2 := by
  intro l
  induction l with
  | nil => intro n h; exact h
  | cons q qs ih =>
      intro n h
      simp only [List.foldl_cons]
      exact ih _ (manyInv_addJoinedStep gmn gdm gfa jf n q h)

/-- The full invariant of a grouped entry: every list slot is
deduplicated with truthy identifiers, and every unique join-config
pair's slot holds a single-object value. -/
def EntryInv (gmn gdm : String → String)
    (gfa : String → String → Option FieldAttr)
    (jc : List (String × JoinAttr)) (e : GroupEntry) : Prop :=
  (∀ p ∈ e.nested, ManyInvVal p.2) ∧
  (∀ q ∈ jc, isUniqueJoin gfa gdm q.1 q.2 = true →
    ∃ x, e.nested.lookup (gmn q.1) = some (.single x))

/-- Running the add-joined loop over any entry whose list slots satisfy
the deduplication invariant yields an entry with the full invariant. -/
theorem entryInv_updateEntry (gmn gdm : String → String)
    (gfa : String → String → Option FieldAttr)
    (jc : List (String × JoinAttr)) (jf : List (String × Row))
    (e : GroupEntry) (h : ∀ p ∈ e.nested, ManyInvVal p.2) :
    EntryInv gmn gdm gfa jc (updateEntry gmn gdm gfa jc jf e) := by
  constructor
  · intro p hp
    exact manyInv_addJoined gmn gdm gfa jf jc e.nested h p hp
  · intro q hq hu
    exact addJoined_single gmn gdm gfa jf jc e.nested q hq hu

theorem map_fst_update (l : List (JValue × GroupEntry)) (mid : JValue)
    (F : GroupEntry → GroupEntry) :
    (l.map (fun p => if p.1 = mid then (p.1, F p.2) else p)).map Prod.fst =
      l.map Prod.fst := by
  rw [List.map_map]
  refine List.map_congr_left (fun p _ => ?_)
  by_cases h : p.1 = mid <;> simp [h]

/-- The keys of the group map after one row: unchanged, except that a
truthy, not-yet-seen base identifier is appended. -/
theorem processRow_keys (gmn gdm : String → String)
    (gfnJ : String → String → String)
    (gfa : String → String → Option FieldAttr) (schema : Schema)
    (jc : List (String × JoinAttr)) (refs : List SelectRef)
    (acc : List (JValue × GroupEntry)) (row : Row) :
    (processRow gmn gdm gfnJ gfa schema jc refs acc row).map Prod.fst =
      if (rowMainId gmn gfnJ jc refs row).truthy then
        (if rowMainId gmn gfnJ jc refs row ∈ acc.map Prod.fst then
          acc.map Prod.fst
         else acc.map Prod.fst ++ [rowMainId gmn gfnJ jc refs row])
      else acc.map Prod.fst := by
  unfold processRow
  by_cases ht : (rowMainId gmn gfnJ jc refs row).truthy = true
  · rw [if_neg (by simp [ht]), if_pos ht]
    by_cases hmem : rowMainId gmn gfnJ jc refs row ∈ acc.map Prod.fst
    · have hany : acc.any
          (fun p => p.1 = rowMainId gmn gfnJ jc refs row) = true := by
        rw [List.any_eq_true]
        obtain ⟨p, hp, hpk⟩ := List.mem_map.mp hmem
        exact ⟨p, hp, by simp [hpk]⟩
      rw [if_pos hany, map_fst_update, if_pos hmem]
    · have hany : ¬ acc.any
          (fun p => p.1 = rowMainId gmn gfnJ jc refs row) = true := by
        rw [List.any_eq_true]
        rintro ⟨p, hp, hpk⟩
        exact hmem (List.mem_map.mpr ⟨p, hp, by simpa using hpk⟩)
      rw [if_neg hany, map_fst_update, if_neg hmem, List.map_append]
      rfl
  · rw [if_pos ht, if_neg ht]

/-- Key membership after one row. -/
theorem processRow_key_mem (gmn gdm : String → String)
    (gfnJ : String → String → String)
    (gfa : String → String → Option FieldAttr) (schema : Schema)
    (jc : List (String × JoinAttr)) (refs : List SelectRef)
    (acc : List (JValue × GroupEntry)) (row : Row) (x : JValue) :
    x ∈ (processRow gmn gdm gfnJ gfa schema jc refs acc row).map Prod.fst ↔
      (x ∈ acc.map Prod.fst ∨
        (rowMainId gmn gfnJ jc refs row = x ∧ x.truthy = true)) := by
  rw [processRow_keys]
  by_cases ht : (rowMainId gmn gfnJ jc refs row).truthy = true
  · rw [if_pos ht]
    by_cases hmem : rowMainId gmn gfnJ jc refs row ∈ acc.map Prod.fst
    · rw [if_pos hmem]
      constructor
      · exact Or.inl
      · rintro (h | ⟨rfl, _⟩)
        · exact h
        · exact hmem
    · rw [if_neg hmem]
      rw [List.mem_append, List.mem_singleton]
      constructor
      · rintro (h | rfl)
        · exact Or.inl h
        · exact Or.inr ⟨rfl, ht⟩
      · rintro (h | ⟨rfl, _⟩)
        · exact Or.inl h
        · exact Or.inr rfl
  · rw [if_neg ht]
    constructor
    · exact Or.inl
    · rintro (h | ⟨rfl, hx⟩)
      · exact h
      · exact absurd hx ht

/-- The group map's keys collect exactly the truthy base identifiers of
the processed rows. -/
theorem groupRows_mem_aux (gmn gdm : String → String)
    (gfnJ : String → String → String)
    (gfa : String → String → Option FieldAttr) (schema : Schema)
    (jc : List (String × JoinAttr)) (refs : List SelectRef) :
    ∀ (rows : List Row) (acc : List (JValue × GroupEntry)) (x : JValue),
      x ∈ ((rows.foldl (processRow gmn gdm gfnJ gfa schema jc refs)
          acc).map Prod.fst) ↔
        (x ∈ acc.map Prod.fst ∨
          ∃ row ∈ rows, rowMainId gmn gfnJ jc refs row = x ∧
            x.truthy = true) := by
  intro rows
  induction rows with
  | nil => intro acc x; simp
  | cons row rows ih =>
      intro acc x
      simp only [List.foldl_cons]
      rw [ih, processRow_key_mem]
      simp only [List.mem_cons]
      constructor
      · rintro ((h | h) | ⟨r, hr, hrx⟩)
        · exact Or.inl h
        · exact Or.inr ⟨row, Or.inl rfl, h⟩
        · exact Or.inr ⟨r, Or.inr hr, hrx⟩
      · rintro (h | ⟨r, (rfl | hr), hrx⟩)
        · exact Or.inl (Or.inl h)
        · exact Or.inl (Or.inr hrx)
        · exact Or.inr ⟨r, hr, hrx⟩

/-- The group map's keys stay pairwise distinct. -/
theorem groupRows_nodup_aux (gmn gdm : String → String)
    (gfnJ : String → String → String)
    (gfa : String → String → Option FieldAttr) (schema : Schema)
    (jc : List (String × JoinAttr)) (refs : List SelectRef) :
    ∀ (rows : List Row) (acc : List (JValue × GroupEntry)),
      (acc.map Prod.fst).Nodup →
      ((rows.foldl (processRow gmn gdm gfnJ gfa schema jc refs)
        acc).map Prod.fst).Nodup := by
  intro rows
  induction rows with
  | nil => intro acc h; exact h
  | cons row rows ih =>
      intro acc h
      simp only [List.foldl_cons]
      refine ih _ ?_
      rw [processRow_keys]
      by_cases ht : (rowMainId gmn gfnJ jc refs row).truthy = true
      · rw [if_pos ht]
        by_cases hmem : rowMainId gmn gfnJ jc refs row ∈ acc.map Prod.fst
        · rw [if_pos hmem]
          exact h
        · rw [if_neg hmem]
          rw [List.nodup_append]
          exact ⟨h, List.nodup_singleton _,
            fun a ha => by simp; intro hx; rw [hx] at ha; exact hmem ha⟩
      · rw [if_neg ht]
        exact h

/-- Every entry of the group map satisfies the full entry invariant. -/
theorem processRow_entryInv (gmn gdm : String → String)
    (gfnJ : String → String → String)
    (gfa : String → String → Option FieldAttr) (schema : Schema)
    (jc : List (String × JoinAttr)) (refs : List SelectRef)
    (acc : List (JValue × GroupEntry)) (row : Row)
    (h : ∀ p ∈ acc, EntryInv gmn gdm gfa jc p.2) :
    ∀ p ∈ processRow gmn gdm gfnJ gfa schema jc refs acc row,
      EntryInv gmn gdm gfa jc p.2 := by
  unfold processRow
  by_cases ht : (rowMainId gmn gfnJ jc refs row).truthy = true
  · rw [if_neg (by simp [ht])]
    intro p hp
    obtain ⟨y, hy, hyp⟩ := List.mem_map.mp hp
    have hyinv : (∀ z ∈ y.2.nested, ManyInvVal z.2) ∨
        EntryInv gmn gdm gfa jc y.2 := by
      by_cases hany : acc.any
          (fun p => p.1 = rowMainId gmn gfnJ jc refs row) = true
      · rw [if_pos hany] at hy
        exact Or.inr (h y hy)
      · rw [if_neg hany] at hy
        rcases List.mem_append.mp hy with h1 | h1
        · exact Or.inr (h y h1)
        · left
          rw [List.mem_singleton.mp h1]
          intro z hz
          exact manyInv_initNested gmn gdm gfa schema jc [] (by simp) z hz
    by_cases hk : y.1 = rowMainId gmn gfnJ jc refs row
    · rw [if_pos hk] at hyp
      rw [← hyp]
      refine entryInv_updateEntry gmn gdm gfa jc _ y.2 ?_
      rcases hyinv with h1 | h1
      · exact h1
      · exact h1.1
    · rw [if_neg hk] at hyp
      rw [← hyp]
      rcases hyinv with h1 | h1
      · -- the fresh entry always carries the row's key, so this branch
        -- can only come from an old entry
        by_cases hany : acc.any
            (fun p => p.1 = rowMainId gmn gfnJ jc refs row) = true
        · rw [if_pos hany] at hy
          exact h y hy
        · rw [if_neg hany] at hy
          rcases List.mem_append.mp hy with h2 | h2
          · exact h y h2
          · exact absurd (congrArg Prod.fst (List.mem_singleton.mp h2)) hk
      · exact h1
  · rw [if_pos ht]
    exact h

/-- Every entry of the accumulated group map satisfies the entry
invariant. -/
theorem groupRows_entryInv_aux (gmn gdm : String → String)
    (gfnJ : String → String → String)
    (gfa : String → String → Option FieldAttr) (schema : Schema)
    (jc : List (String × JoinAttr)) (refs : List SelectRef) :
    ∀ (rows : List Row) (acc : List (JValue × GroupEntry)),
      (∀ p ∈ acc, EntryInv gmn gdm gfa jc p.2) →
      ∀ p ∈ rows.foldl (processRow gmn gdm gfnJ gfa schema jc refs) acc,
        EntryInv gmn gdm gfa jc p.2 := by
  intro rows
  induction rows with
  | nil => intro acc h; exact h
  | cons row rows ih =>
      intro acc h
      simp only [List.foldl_cons]
      exact ih _ (processRow_entryInv gmn gdm gfnJ gfa schema jc refs acc
        row h)

/-- Claim C5: `processJoinedResults` groups the flat rows by the base
model's identifier and yields exactly one output record per distinct
truthy base identifier (rows with an absent/falsy base identifier are
skipped); for a joined model with a unique join field the entry nests a
single-object value (or null), and for a non-unique join field it nests
a list whose objects have pairwise-distinct, truthy identifiers — rows
whose joined-model identifier is absent or null contribute no entry. -/
theorem joined_results_grouping (gmn gdm : String → String)
    (gfnJ : String → String → String)
    (gfa : String → String → Option FieldAttr) (schema : Schema)
    (rows : List Row) (jc : List (String × JoinAttr)) (refs : List SelectRef)
    (hrows : rows ≠ []) :
    processJoinedResults gmn gdm gfnJ gfa schema rows (some jc) refs =
      .grouped ((groupRows gmn gdm gfnJ gfa schema jc refs rows).map
        Prod.snd) ∧
    ((groupRows gmn gdm gfnJ gfa schema jc refs rows).map Prod.fst).Nodup ∧
    (∀ x, x ∈ (groupRows gmn gdm gfnJ gfa schema jc refs rows).map
        Prod.fst ↔
      ∃ row ∈ rows, rowMainId gmn gfnJ jc refs row = x ∧
        x.truthy = true) ∧
    (∀ p ∈ groupRows gmn gdm gfnJ gfa schema jc refs rows,
      ∀ q ∈ jc, isUniqueJoin gfa gdm q.1 q.2 = true →
        ∃ x, p.2.nested.lookup (gmn q.1) = some (.single x)) ∧
    (∀ p ∈ groupRows gmn gdm gfnJ gfa schema jc refs rows,
      ∀ k l, p.2.nested.lookup k = some (.many l) →
        ((l.map (fun o => objGet o "id")).Nodup ∧
          ∀ o ∈ l, (objGet o "id").truthy = true)) := by
  refine ⟨?_, ?_, ?_, ?_, ?_⟩
  · unfold processJoinedResults
    have : rows.isEmpty = false := by
      cases rows with
      | nil => exact absurd rfl hrows
      | cons r rs => rfl
    rw [this]
    rfl
  · exact groupRows_nodup_aux gmn gdm gfnJ gfa schema jc refs rows []
      (by simp)
  · intro x
    unfold groupRows
    rw [groupRows_mem_aux]
    simp
  · intro p hp q hq hu
    exact (groupRows_entryInv_aux gmn gdm gfnJ gfa schema jc refs rows []
      (by simp) p hp).2 q hq hu
  · intro p hp k l hl
    have hinv := (groupRows_entryInv_aux gmn gdm gfnJ gfa schema jc refs
      rows [] (by simp) p hp).1
    have := hinv _ (mem_of_lookup _ _ _ hl)
    exact this

/-- The join fixture for the concrete C5 instance: a session model whose
join field is not unique. -/
def sessionSchema : Schema :=
  [("session",
    { modelName := "session",
      fields := [("id", { type := FieldType.string }),
        ("userId", { type := FieldType.string })] })]

/-- Three flat rows: the same base user twice (two session matches) and a
second user with a no-match left join. -/
def demoJoinRows : List Row :=
  [[("id", .str "u1"), ("_joined_session_id", .str "s1"),
    ("_joined_session_userId", .str "u1")],
   [("id", .str "u1"), ("_joined_session_id", .str "s2"),
    ("_joined_session_userId", .str "u1")],
   [("id", .str "u2"), ("_joined_session_id", .null),
    ("_joined_session_userId", .null)]]

/-- The join configuration of the concrete C5 instance. -/
def demoJoinConfig : List (String × JoinAttr) :=
  [("session", { relation := "left", onFrom := "id", onTo := "userId" })]

/-- The select references of the concrete C5 instance. -/
def demoJoinRefs : List SelectRef :=
  [⟨"session", "id"⟩, ⟨"session", "userId"⟩]

/-- Concrete instance of the C5 theorem, all hypotheses discharged: the
grouped keys of the demo join rows are pairwise distinct. -/
theorem joined_results_grouping_witness :
    ((groupRows (fun m => m) (fun m => m) (fun _ f => f)
      (fun m f => lookupField sessionSchema m f) sessionSchema
      demoJoinConfig demoJoinRefs demoJoinRows).map Prod.fst).Nodup :=
  (joined_results_grouping (fun m => m) (fun m => m) (fun _ f => f)
    (fun m f => lookupField sessionSchema m f) sessionSchema
    demoJoinRows demoJoinConfig demoJoinRefs (by decide)).2.1
end BetterAuth
